import Mathlib

/-!
Verification of the MCP Upstox trading server (`mcp-cursor-integration.js`).

The development shallowly embeds the three cores of the server:

* `calculateMCP` — the Most Connected Pivot detector (a pure function on a
  price series);
* the `/strategy/mcp` decision logic (deviation gate, trend test, position
  sizing);
* `ensureValidToken` and the token-lifecycle operations (startup load,
  `/callback` login, logout).

Prices are modelled as exact rationals (`ℚ`); timestamps as integers
(epoch milliseconds).  Failure of the remote refresh-token exchange is
modelled by passing `none` as the exchange result; whether the exchange
was attempted at all is recorded in the `refreshCalled` field of the
result, so "no network call" claims are expressible.
-/

namespace MCP

/-- A historical data point: timestamp (epoch milliseconds) and price.
Mirrors the objects built by the `dataPoints` mapping in the server
(`price` is the candle's close). -/
structure PricePoint where
  timestamp : Int
  price : ℚ
deriving DecidableEq, Repr

/-- A pivot candidate together with its connection count, as produced by
`calculateMCP`. -/
structure Pivot where
  timestamp : Int
  price : ℚ
  connections : Nat
deriving DecidableEq, Repr

/-- `dataPoints.reduce((acc, point) => acc + point.price, 0)`. -/
def priceSum (ps : List PricePoint) : ℚ :=
  ps.foldl (fun acc point => acc + point.price) 0

/-- `const avgPrice = sum / dataPoints.length`. -/
def avgPrice (ps : List PricePoint) : ℚ :=
  priceSum ps / ps.length

/-- The crossover walk of `calculateMCP`: starting from the tracked
`aboveAvg` flag, record every point whose `price > avgPrice` status
differs from the tracked flag, updating the flag at each recorded
crossover. -/
def pivotLoop (avg : ℚ) : Bool → List PricePoint → List PricePoint
  | _, [] => []
  | aboveAvg, point :: rest =>
    let currentAboveAvg := decide (point.price > avg)
    if currentAboveAvg ≠ aboveAvg then
      point :: pivotLoop avg currentAboveAvg rest
    else
      pivotLoop avg aboveAvg rest

/-- The pivot-candidate list of `calculateMCP`: the walk starts at index 1
with the flag initialised from `dataPoints[0].price > avgPrice`. -/
def pivotPoints (ps : List PricePoint) : List PricePoint :=
  match ps with
  | [] => []
  | point0 :: rest =>
      pivotLoop (avgPrice ps) (decide (point0.price > avgPrice ps)) rest

/-- `Math.abs(pivot.price - point.price) / pivot.price <= 0.001` — the 0.1%
connection test of `calculateMCP`. -/
def isConnection (pivotPrice : ℚ) (point : PricePoint) : Bool :=
  decide (|pivotPrice - point.price| / pivotPrice ≤ 0.001)

/-- The `forEach` counter of `calculateMCP`: number of points of the whole
series connected to a given pivot price. -/
def connectionCount (ps : List PricePoint) (pivotPrice : ℚ) : Nat :=
  ps.foldl (fun acc point => if isConnection pivotPrice point then acc + 1 else acc) 0

/-- `pivotPoints.map(pivot => ({...pivot, connections: connectionCount}))`. -/
def withConnections (ps : List PricePoint) : List Pivot :=
  (pivotPoints ps).map fun pivot =>
    ⟨pivot.timestamp, pivot.price, connectionCount ps pivot.price⟩

/-- The JS comparator `(a, b) => b.connections - a.connections` (descending
by connection count), expressed as the `le` relation of a stable sort.
Node's `Array.prototype.sort` is stable (ES2019), matching `mergeSort`. -/
def pivotLE (a b : Pivot) : Bool := b.connections ≤ a.connections

/-- `calculateMCP(dataPoints)`: `null` on an empty series, otherwise the
head of the candidate list stably sorted by descending connection count
(`connections.length > 0 ? connections[0] : null`). -/
def calculateMCP (ps : List PricePoint) : Option Pivot :=
  if ps.isEmpty then none
  else ((withConnections ps).mergeSort pivotLE).head?

/-! ### The `/strategy/mcp` decision logic -/

/-- Order side chosen by the strategy endpoint. -/
inductive TradeSide
  | buy
  | sell
deriving DecidableEq, Repr

/-- Observable outcome of the `/strategy/mcp` handler after the MCP is
known and the live quote fetched: HOLD response, a placed LIMIT order, or
the 400 "Investment amount too small" rejection (which still computed a
side and an order price before the quantity test). -/
inductive StrategyOutcome
  | hold
  | order (side : TradeSide) (price : ℚ) (quantity : Int)
  | insufficientCapital (side : TradeSide) (price : ℚ)
deriving DecidableEq, Repr

/-- `dataPoints.slice(-10)`. -/
def recentPoints (ps : List PricePoint) : List PricePoint :=
  ps.drop (ps.length - 10)

/-- `recentPoints.reduce((sum, p) => sum + p.price, 0) / recentPoints.length`. -/
def avgRecentPrice (ps : List PricePoint) : ℚ :=
  priceSum (recentPoints ps) / (recentPoints ps).length

/-- `Math.abs(currentPrice - mcp.price) / mcp.price`. -/
def mcpDeviation (mcpPrice currentPrice : ℚ) : ℚ :=
  |currentPrice - mcpPrice| / mcpPrice

/-- The decision logic of the `/strategy/mcp` handler: inside the 0.5%
deviation band, pick BUY above the last-10 average and SELL otherwise,
price the LIMIT order at the current price and size it by
`Math.floor(investmentAmount / currentPrice)`; reject a non-positive
quantity; outside the band, HOLD. -/
def mcpStrategy (mcpPrice currentPrice : ℚ) (dataPoints : List PricePoint)
    (investmentAmount : ℚ) : StrategyOutcome :=
  if mcpDeviation mcpPrice currentPrice ≤ 0.005 then
    let side := if currentPrice > avgRecentPrice dataPoints then TradeSide.buy else TradeSide.sell
    let orderPrice := currentPrice
    let quantity := ⌊investmentAmount / currentPrice⌋
    if quantity > 0 then
      StrategyOutcome.order side orderPrice quantity
    else
      StrategyOutcome.insufficientCapital side orderPrice
  else
    StrategyOutcome.hold

/-! ### Token lifecycle -/

/-- JS truthiness of a stored token: present and non-empty. -/
def tokenPresent : Option String → Bool
  | none => false
  | some s => !s.isEmpty

/-- Is a stored expiry strictly in the future at time `t`?  An absent
expiry is never in the future. -/
def expInFuture : Option Int → Int → Bool
  | some e, t => decide (t < e)
  | none, _ => false

/-- The `authState` object: access/refresh tokens, expiry (epoch ms) and
the `isAuthenticated` flag. -/
structure AuthState where
  accessToken : Option String
  refreshToken : Option String
  expiresAt : Option Int
  isAuthenticated : Bool
deriving DecidableEq, Repr

/-- A successful token-endpoint response (`access_token`,
`refresh_token`, `expires_in` in seconds). -/
structure TokenResponse where
  access_token : String
  refresh_token : String
  expires_in : Int
deriving DecidableEq, Repr

/-- `5 * 60 * 1000` milliseconds. -/
def fiveMinutesMs : Int := 5 * 60 * 1000

/-- The wholesale `authState` replacement performed on a successful token
exchange (both refresh and `/callback`): fresh tokens, expiry
`Date.now() + expires_in * 1000`, `isAuthenticated: true`. -/
def refreshedState (now : Int) (r : TokenResponse) : AuthState :=
  ⟨some r.access_token, some r.refresh_token, some (now + r.expires_in * 1000), true⟩

/-- Result of one `ensureValidToken` run: the returned boolean, the
`authState` after the run, and whether the refresh exchange was attempted
(a network call was made). -/
structure TokenCheck where
  ok : Bool
  state : AuthState
  refreshCalled : Bool
deriving DecidableEq, Repr

/-- `ensureValidToken()`: return false when refresh token or expiry is
missing; return true with no network call when the expiry is more than
five minutes away; otherwise attempt the refresh exchange, replacing the
whole state on success and leaving it untouched on failure
(`refreshResult = none`). -/
def ensureValidToken (s : AuthState) (now : Int) (refreshResult : Option TokenResponse) :
    TokenCheck :=
  match s.expiresAt with
  | none => ⟨false, s, false⟩
  | some expiresAt =>
    if !(tokenPresent s.refreshToken) then ⟨false, s, false⟩
    else if expiresAt > now + fiveMinutesMs then ⟨true, s, false⟩
    else
      match refreshResult with
      | some r => ⟨true, refreshedState now r, true⟩
      | none => ⟨false, s, true⟩

/-- The startup token load: keep the stored fields, recompute
`isAuthenticated: !!tokenData.accessToken && new Date(tokenData.expiresAt) > new Date()`. -/
def loadAuthState (file : AuthState) (now : Int) : AuthState :=
  ⟨file.accessToken, file.refreshToken, file.expiresAt,
    tokenPresent file.accessToken && expInFuture file.expiresAt now⟩

/-- The `/callback` authorization-code exchange success: same wholesale
state replacement as a successful refresh. -/
def completeLogin (now : Int) (r : TokenResponse) : AuthState :=
  ⟨some r.access_token, some r.refresh_token, some (now + r.expires_in * 1000), true⟩

/-- The `/logout` handler clears every field. -/
def logoutState : AuthState :=
  ⟨none, none, none, false⟩

/-- The session invariant of the data model: `isAuthenticated` holds
exactly when an access token is present (truthy) and the expiry was in
the future at the last check. -/
def authInvariant (s : AuthState) (lastCheck : Int) : Prop :=
  s.isAuthenticated = (tokenPresent s.accessToken && expInFuture s.expiresAt lastCheck)

/-- The trade side recorded by the strategy outcome, when one was
computed (both for an emitted order and for the rejected zero-quantity
case, where the handler had already chosen the side). -/
def StrategyOutcome.sideOf : StrategyOutcome → Option TradeSide
  | .hold => none
  | .order s _ _ => some s
  | .insufficientCapital s _ => some s

/-- The order price recorded by the strategy outcome, when one was
computed. -/
def StrategyOutcome.priceOf : StrategyOutcome → Option ℚ
  | .hold => none
  | .order _ p _ => some p
  | .insufficientCapital _ p => some p

/-- The quantity of the emitted order, when an order was emitted. -/
def StrategyOutcome.quantityOf : StrategyOutcome → Option Int
  | .order _ _ q => some q
  | _ => none

end MCP

namespace MCP

/-- C3: a failed refresh-token exchange corrupts nothing: for every token
state and clock, running `ensureValidToken` against a failing exchange
leaves the stored state exactly as it was, and whenever the exchange was
actually attempted the call returns false. -/
theorem ensureValidToken_failed_refresh (s : AuthState) (now : Int) :
    (ensureValidToken s now none).state = s ∧
      ((ensureValidToken s now none).refreshCalled = true →
        (ensureValidToken s now none).ok = false) := by
  unfold ensureValidToken
  cases s.expiresAt with
  | none => exact ⟨rfl, by simp⟩
  | some e =>
    by_cases hrt : tokenPresent s.refreshToken
    · by_cases hfast : e > now + fiveMinutesMs
      · simp [hrt, hfast]
      · simp [hrt, hfast]
    · simp [hrt]

/-- Closed instance of `ensureValidToken_failed_refresh`: an expired state
on which the failing refresh really is attempted comes back unchanged
with a false result. -/
theorem ensureValidToken_failed_refresh_witness :
    (ensureValidToken ⟨some "acc", some "ref", some 1000, true⟩ 1000000000 none).state =
        ⟨some "acc", some "ref", some 1000, true⟩ ∧
      (ensureValidToken ⟨some "acc", some "ref", some 1000, true⟩ 1000000000 none).ok = false :=
  ⟨(ensureValidToken_failed_refresh ⟨some "acc", some "ref", some 1000, true⟩ 1000000000).1,
    (ensureValidToken_failed_refresh ⟨some "acc", some "ref", some 1000, true⟩ 1000000000).2
      (by decide)⟩

/-- C5 counterexample: a token state whose expiry is far in the future but
which holds no refresh token.  The claim says `ensureValidToken` returns
true for every state with a far-future expiry; the code checks
`!authState.refreshToken` first and returns false here. -/
theorem ensureValidToken_fast_path_counterexample :
    (0 : Int) + fiveMinutesMs < 1000000000000 ∧
      (ensureValidToken ⟨some "acc", none, some 1000000000000, false⟩ 0 none).ok = false := by
  constructor
  · decide
  · rfl

/-- C5 (amended): for every token state that has a refresh token on
record and whose expiry is more than five minutes in the future,
`ensureValidToken` returns true immediately, leaves the state unchanged,
and performs no refresh exchange — regardless of what the exchange would
have answered. -/
theorem ensureValidToken_fast_path (s : AuthState) (now e : Int)
    (refreshResult : Option TokenResponse) (he : s.expiresAt = some e)
    (hrt : tokenPresent s.refreshToken = true) (hfut : now + fiveMinutesMs < e) :
    ensureValidToken s now refreshResult = ⟨true, s, false⟩ := by
  unfold ensureValidToken
  rw [he]
  simp [hrt, hfut]

/-- Closed instance of `ensureValidToken_fast_path`. -/
theorem ensureValidToken_fast_path_witness :
    ensureValidToken ⟨some "acc", some "ref", some 1000000000000, true⟩ 0 none =
      ⟨true, ⟨some "acc", some "ref", some 1000000000000, true⟩, false⟩ :=
  ensureValidToken_fast_path ⟨some "acc", some "ref", some 1000000000000, true⟩ 0
    1000000000000 none rfl (by decide) (by decide)

/-- C6 counterexample: the authorization server rejects the stored
refresh token (the exchange fails), yet the access token is still stored
afterwards — the state is not cleared — and a second `ensureValidToken`
call attempts the exchange again (a further network call), contradicting
the claimed transition to a cleared `UNAUTHENTICATED` state with no
further network calls. -/
theorem ensureValidToken_rejection_counterexample :
    (ensureValidToken ⟨some "acc", some "ref", some 1000, true⟩ 1000000000 none).state.accessToken
        = some "acc" ∧
      (ensureValidToken
          (ensureValidToken ⟨some "acc", some "ref", some 1000, true⟩ 1000000000 none).state
          1000000000 none).refreshCalled = true := by
  exact ⟨rfl, rfl⟩

/-- C6 (amended): when the authorization server rejects the stored
refresh token, `ensureValidToken` returns false, keeps the stored tokens
untouched (there is no transition clearing state), and a subsequent call
with the same clock attempts the exchange again — the code retries the
network call on every invocation until a logout or a successful exchange
replaces the state. -/
theorem ensureValidToken_rejected_refresh (s : AuthState) (now e : Int)
    (he : s.expiresAt = some e) (hrt : tokenPresent s.refreshToken = true)
    (hexp : e ≤ now + fiveMinutesMs) :
    ensureValidToken s now none = ⟨false, s, true⟩ ∧
      (ensureValidToken (ensureValidToken s now none).state now none).refreshCalled = true := by
  have h1 : ensureValidToken s now none = ⟨false, s, true⟩ := by
    unfold ensureValidToken
    rw [he]
    simp [hrt]
    omega
  refine ⟨h1, ?_⟩
  rw [h1, h1]

/-- Closed instance of `ensureValidToken_rejected_refresh`. -/
theorem ensureValidToken_rejected_refresh_witness :
    ensureValidToken ⟨some "acc", some "ref", some 1000, true⟩ 1000000000 none =
        ⟨false, ⟨some "acc", some "ref", some 1000, true⟩, true⟩ ∧
      (ensureValidToken
          (ensureValidToken ⟨some "acc", some "ref", some 1000, true⟩ 1000000000 none).state
          1000000000 none).refreshCalled = true :=
  ensureValidToken_rejected_refresh ⟨some "acc", some "ref", some 1000, true⟩ 1000000000 1000
    rfl (by decide) (by decide)

/-- The `forEach` connection counter is exactly a `countP` over the whole
series. -/
theorem connectionCount_eq_countP (ps : List PricePoint) (price : ℚ) :
    connectionCount ps price = ps.countP (isConnection price) := by
  suffices h : ∀ (l : List PricePoint) (acc : Nat),
      l.foldl (fun acc point => if isConnection price point then acc + 1 else acc) acc =
        acc + l.countP (isConnection price) by
    simpa [connectionCount] using h ps 0
  intro l
  induction l with
  | nil => simp
  | cons p l ih =>
    intro acc
    by_cases hp : isConnection price p <;> simp [List.countP_cons, hp, ih]
    omega

/-- C2: the strategy decision.  Outside the 0.5% deviation band the
handler holds; inside it the computed side is BUY exactly when the
current price strictly exceeds the mean of the last-10 window (SELL
otherwise, ties included), the computed order price is the current price,
and the emitted order quantity — present exactly when the floor is
positive — is `⌊investmentAmount / currentPrice⌋`. -/
theorem mcpStrategy_decision (mp cp : ℚ) (dps : List PricePoint) (inv : ℚ) :
    (0.005 < mcpDeviation mp cp → mcpStrategy mp cp dps inv = .hold) ∧
      (mcpDeviation mp cp ≤ 0.005 →
        (mcpStrategy mp cp dps inv).sideOf =
            some (if avgRecentPrice dps < cp then .buy else .sell) ∧
          (mcpStrategy mp cp dps inv).priceOf = some cp ∧
          (mcpStrategy mp cp dps inv).quantityOf =
            if 0 < ⌊inv / cp⌋ then some ⌊inv / cp⌋ else none) := by
  constructor
  · intro h
    have h' : ¬ (mcpDeviation mp cp ≤ 0.005) := not_le.mpr h
    simp [mcpStrategy, h']
  · intro h
    simp only [mcpStrategy, if_pos h]
    by_cases hq : (0 : Int) < ⌊inv / cp⌋ <;>
      simp [hq, StrategyOutcome.sideOf, StrategyOutcome.priceOf, StrategyOutcome.quantityOf]

/-- Closed instance of `mcpStrategy_decision` at zero deviation: BUY at
the current price, quantity `⌊1000 / 100⌋ = 10`. -/
theorem mcpStrategy_decision_witness :
    mcpDeviation 100 100 ≤ 0.005 ∧
      (mcpStrategy 100 100 [⟨0, 99⟩] 1000).sideOf = some TradeSide.buy ∧
      (mcpStrategy 100 100 [⟨0, 99⟩] 1000).priceOf = some 100 ∧
      (mcpStrategy 100 100 [⟨0, 99⟩] 1000).quantityOf = some 10 := by
  have hdev : mcpDeviation (100 : ℚ) 100 ≤ 0.005 := by norm_num [mcpDeviation]
  have h := (mcpStrategy_decision 100 100 [⟨0, 99⟩] 1000).2 hdev
  refine ⟨hdev, ?_, h.2.1, ?_⟩
  · rw [h.1]
    norm_num [avgRecentPrice, recentPoints, priceSum]
  · rw [h.2.2]
    norm_num

/-- C8: a zero-quantity order is never placed.  When the strategy is in
the trading band but `⌊investmentAmount / currentPrice⌋ = 0`, the handler
answers with the insufficient-capital rejection instead of an order; and
every emitted order has a strictly positive quantity. -/
theorem mcpStrategy_insufficient_capital (mp cp : ℚ) (dps : List PricePoint) (inv : ℚ) :
    (mcpDeviation mp cp ≤ 0.005 → ⌊inv / cp⌋ = 0 →
        mcpStrategy mp cp dps inv =
          .insufficientCapital (if avgRecentPrice dps < cp then .buy else .sell) cp) ∧
      ∀ side price q, mcpStrategy mp cp dps inv = .order side price q → 0 < q := by
  constructor
  · intro h hq
    simp [mcpStrategy, if_pos h, hq]
  · intro side price q hord
    by_cases h : mcpDeviation mp cp ≤ 0.005
    · simp only [mcpStrategy, if_pos h] at hord
      by_cases hq : (0 : Int) < ⌊inv / cp⌋
      · simp only [if_pos hq] at hord
        cases hord
        exact hq
      · simp [hq] at hord
    · simp [mcpStrategy, h] at hord

/-- Closed instance of `mcpStrategy_insufficient_capital`: with
investment 50 at price 100 the floor is 0 and the decision is the
rejection; with investment 1000 the emitted quantity 10 is positive. -/
theorem mcpStrategy_insufficient_capital_witness :
    mcpStrategy 100 100 [⟨0, 99⟩] 50 = .insufficientCapital TradeSide.buy 100 ∧
      (0 : Int) < 10 := by
  constructor
  · have h := (mcpStrategy_insufficient_capital 100 100 [⟨0, 99⟩] 50).1
      (by norm_num [mcpDeviation]) (by norm_num)
    rw [h]
    norm_num [avgRecentPrice, recentPoints, priceSum]
  · exact (mcpStrategy_insufficient_capital 100 100 [⟨0, 99⟩] 1000).2 TradeSide.buy 100 10
      (by norm_num [mcpStrategy, mcpDeviation, avgRecentPrice, recentPoints, priceSum])

/-- C7: the connection count attached to every pivot candidate equals the
number of points of the whole series whose relative distance to the
candidate's price is at most 0.1%. -/
theorem withConnections_count (ps : List PricePoint) (c : Pivot)
    (hc : c ∈ withConnections ps) :
    c.connections = ps.countP fun point => decide (|c.price - point.price| / c.price ≤ 0.001) := by
  obtain ⟨p, hp, rfl⟩ := List.mem_map.mp hc
  simpa [isConnection] using connectionCount_eq_countP ps p.price

/-- Closed instance of `withConnections_count` on a two-point series with
one candidate. -/
theorem withConnections_count_witness :
    (⟨1, 2, 1⟩ : Pivot) ∈ withConnections [⟨0, 1⟩, ⟨1, 2⟩] ∧
      (1 : Nat) = ([⟨0, 1⟩, ⟨1, 2⟩] : List PricePoint).countP
        fun point => decide (|(2 : ℚ) - point.price| / 2 ≤ 0.001) := by
  have hmem : (⟨1, 2, 1⟩ : Pivot) ∈ withConnections [⟨0, 1⟩, ⟨1, 2⟩] := by
    norm_num [withConnections, pivotPoints, avgPrice, priceSum, pivotLoop,
      connectionCount, isConnection]
  exact ⟨hmem, withConnections_count _ _ hmem⟩

/-- Every point recorded by the crossover walk is a point of the walked
list. -/
theorem pivotLoop_subset (avg : ℚ) :
    ∀ (b : Bool) (l : List PricePoint) (q : PricePoint), q ∈ pivotLoop avg b l → q ∈ l := by
  intro b l
  induction l generalizing b with
  | nil => intro q hq; simp [pivotLoop] at hq
  | cons p rest ih =>
    intro q hq
    rw [pivotLoop] at hq
    split at hq
    next hflip =>
      rcases List.mem_cons.mp hq with hq | hq
      · exact hq ▸ List.mem_cons_self p rest
      · exact List.mem_cons_of_mem p (ih _ q hq)
    next hflip =>
      exact List.mem_cons_of_mem p (ih _ q hq)

/-- Pivot candidates come from the tail of the series: index 0 only seeds
the tracked flag. -/
theorem mem_pivotPoints (ps : List PricePoint) (q : PricePoint) (hq : q ∈ pivotPoints ps) :
    ∃ point0 rest, ps = point0 :: rest ∧ q ∈ rest := by
  match ps with
  | [] => simp [pivotPoints] at hq
  | point0 :: rest =>
    exact ⟨point0, rest, rfl, pivotLoop_subset _ _ rest q hq⟩

/-- Every point is connected to its own price: the relative distance is
zero. -/
theorem isConnection_self (p : PricePoint) : isConnection p.price p = true := by
  simp only [isConnection, sub_self, abs_zero, zero_div, decide_eq_true_eq]
  norm_num

/-- C10: a returned MCP is built from a data point of the series at index
at least 1 (the first point only initialises the walk), and its
connection count is at least 1 because its own data point is within zero
relative distance of itself. -/
theorem calculateMCP_pivot_from_series (ps : List PricePoint) (piv : Pivot)
    (h : calculateMCP ps = some piv) :
    (∃ i point, 1 ≤ i ∧ ps[i]? = some point ∧
        point.timestamp = piv.timestamp ∧ point.price = piv.price) ∧
      1 ≤ piv.connections := by
  unfold calculateMCP at h
  by_cases hemp : ps.isEmpty
  · simp [hemp] at h
  · rw [if_neg hemp] at h
    have hmem : piv ∈ (withConnections ps).mergeSort pivotLE := by
      cases hl : (withConnections ps).mergeSort pivotLE with
      | nil => rw [hl] at h; simp at h
      | cons a t =>
        rw [hl] at h
        simp only [List.head?_cons, Option.some.injEq] at h
        rw [← h]
        exact List.mem_cons_self a t
    have hmem' : piv ∈ withConnections ps :=
      (List.mergeSort_perm (withConnections ps) pivotLE).mem_iff.mp hmem
    obtain ⟨p, hp, rfl⟩ := List.mem_map.mp hmem'
    obtain ⟨point0, rest, hps, hrest⟩ := mem_pivotPoints ps p hp
    subst hps
    obtain ⟨j, hj⟩ := List.getElem?_of_mem hrest
    have hpps : p ∈ point0 :: rest := List.mem_cons_of_mem point0 hrest
    constructor
    · exact ⟨j + 1, p, by omega, by simpa using hj, rfl, rfl⟩
    · show 1 ≤ connectionCount (point0 :: rest) p.price
      rw [connectionCount_eq_countP]
      exact List.countP_pos_iff.mpr ⟨p, hpps, isConnection_self p⟩

/-- Closed instance of `calculateMCP_pivot_from_series` on a two-point
series. -/
theorem calculateMCP_pivot_from_series_witness :
    calculateMCP [⟨0, 1⟩, ⟨1, 2⟩] = some ⟨1, 2, 1⟩ ∧
      (∃ i point, 1 ≤ i ∧ ([⟨0, 1⟩, ⟨1, 2⟩] : List PricePoint)[i]? = some point ∧
          point.timestamp = 1 ∧ point.price = 2) ∧
      1 ≤ (1 : Nat) := by
  have hcalc : calculateMCP [⟨0, 1⟩, ⟨1, 2⟩] = some ⟨1, 2, 1⟩ := by
    norm_num [calculateMCP, withConnections, pivotPoints, avgPrice, priceSum,
      pivotLoop, connectionCount, isConnection]
  have h := calculateMCP_pivot_from_series [⟨0, 1⟩, ⟨1, 2⟩] ⟨1, 2, 1⟩ hcalc
  exact ⟨hcalc, h.1, h.2⟩

/-- The descending comparator is transitive. -/
theorem pivotLE_trans : ∀ (a b c : Pivot), pivotLE a b → pivotLE b c → pivotLE a c := by
  intro a b c hab hbc
  simp only [pivotLE, decide_eq_true_eq] at hab hbc ⊢
  omega

/-- The descending comparator is total. -/
theorem pivotLE_total : ∀ (a b : Pivot), pivotLE a b || pivotLE b a := by
  intro a b
  simp only [pivotLE, Bool.or_eq_true, decide_eq_true_eq]
  omega

/-- C1: on a non-empty series, `calculateMCP` returns none exactly when
the walk produced no pivot candidates; and a returned pivot is a
candidate whose connection count no other candidate exceeds, and it is
the first candidate of the walk achieving that count (the stable sort
keeps the original relative order of equal counts, so `connections[0]` is
the earliest maximiser). -/
theorem calculateMCP_max_earliest (ps : List PricePoint) (hne : ps ≠ []) :
    (calculateMCP ps = none ↔ pivotPoints ps = []) ∧
      ∀ piv, calculateMCP ps = some piv →
        piv ∈ withConnections ps ∧
          (∀ c ∈ withConnections ps, c.connections ≤ piv.connections) ∧
          ((withConnections ps).filter
              (fun c => decide (c.connections = piv.connections))).head? = some piv := by
  have hemp : ps.isEmpty = false := by simpa [List.isEmpty_iff] using hne
  have hcalc : calculateMCP ps = ((withConnections ps).mergeSort pivotLE).head? := by
    simp [calculateMCP, hemp]
  have hperm := List.mergeSort_perm (withConnections ps) pivotLE
  constructor
  · rw [hcalc, List.head?_eq_none_iff]
    constructor
    · intro h
      have hwc : withConnections ps = [] := (h ▸ hperm.symm).eq_nil
      simpa only [withConnections, List.map_eq_nil_iff] using hwc
    · intro h
      have hwc : withConnections ps = [] := by simp [withConnections, h]
      rw [hwc]
      simp
  · intro piv hpiv
    rw [hcalc] at hpiv
    obtain ⟨t, ht⟩ : ∃ t, (withConnections ps).mergeSort pivotLE = piv :: t := by
      cases hl : (withConnections ps).mergeSort pivotLE with
      | nil => rw [hl] at hpiv; simp at hpiv
      | cons a s =>
        rw [hl] at hpiv
        simp only [List.head?_cons, Option.some.injEq] at hpiv
        exact ⟨s, by rw [hpiv]⟩
    have hmem : piv ∈ withConnections ps := by
      rw [← hperm.mem_iff, ht]
      exact List.mem_cons_self piv t
    have hsorted : ((withConnections ps).mergeSort pivotLE).Pairwise
        (fun a b => pivotLE a b = true) :=
      List.sorted_mergeSort pivotLE_trans pivotLE_total (withConnections ps)
    have hmax : ∀ c ∈ withConnections ps, c.connections ≤ piv.connections := by
      intro c hc
      have hc' : c ∈ piv :: t := by
        rw [← ht, hperm.mem_iff]
        exact hc
      rcases List.mem_cons.mp hc' with rfl | hct
      · exact Nat.le_refl _
      · have := List.rel_of_pairwise_cons (ht ▸ hsorted) hct
        simpa [pivotLE] using this
    refine ⟨hmem, hmax, ?_⟩
    have hppiv : (fun c => decide (c.connections = piv.connections)) piv = true := by
      simp
    have hFsub : List.Sublist ((withConnections ps).filter
        (fun c => decide (c.connections = piv.connections))) (withConnections ps) :=
      List.filter_sublist _
    have hFpair : ((withConnections ps).filter
        (fun c => decide (c.connections = piv.connections))).Pairwise
          (fun a b => pivotLE a b = true) := by
      apply List.pairwise_of_forall_mem_list
      intro a ha b hb
      have ha' := (List.mem_filter.mp ha).2
      have hb' := (List.mem_filter.mp hb).2
      simp only [decide_eq_true_eq] at ha' hb'
      simp [pivotLE, ha', hb']
    have hFsl : List.Sublist ((withConnections ps).filter
        (fun c => decide (c.connections = piv.connections)))
          ((withConnections ps).mergeSort pivotLE) :=
      List.sublist_mergeSort pivotLE_trans pivotLE_total hFpair hFsub
    have hSF : List.Sublist ((withConnections ps).filter
        (fun c => decide (c.connections = piv.connections)))
          (((withConnections ps).mergeSort pivotLE).filter
            (fun c => decide (c.connections = piv.connections))) := by
      have hFF : ((withConnections ps).filter
          (fun c => decide (c.connections = piv.connections))).filter
            (fun c => decide (c.connections = piv.connections)) =
          (withConnections ps).filter (fun c => decide (c.connections = piv.connections)) :=
        List.filter_eq_self.mpr fun a ha => (List.mem_filter.mp ha).2
      have h1 := hFsl.filter (fun c => decide (c.connections = piv.connections))
      rwa [hFF] at h1
    have hlen : (((withConnections ps).mergeSort pivotLE).filter
        (fun c => decide (c.connections = piv.connections))).length =
          ((withConnections ps).filter
            (fun c => decide (c.connections = piv.connections))).length := by
      rw [← List.countP_eq_length_filter, ← List.countP_eq_length_filter]
      exact hperm.countP_eq _
    have hFS : (withConnections ps).filter
        (fun c => decide (c.connections = piv.connections)) =
          ((withConnections ps).mergeSort pivotLE).filter
            (fun c => decide (c.connections = piv.connections)) :=
      hSF.eq_of_length hlen.symm
    rw [hFS, ht]
    simp

/-- Closed instance of `calculateMCP_max_earliest`: on the two-point
series the single candidate is returned, and it heads the list of
candidates achieving its connection count. -/
theorem calculateMCP_max_earliest_witness :
    calculateMCP [⟨0, 1⟩, ⟨1, 2⟩] = some ⟨1, 2, 1⟩ ∧
      ((withConnections [⟨0, 1⟩, ⟨1, 2⟩]).filter
          (fun c => decide (c.connections = 1))).head? = some ⟨1, 2, 1⟩ := by
  have hcalc : calculateMCP [⟨0, 1⟩, ⟨1, 2⟩] = some ⟨1, 2, 1⟩ := by
    norm_num [calculateMCP, withConnections, pivotPoints, avgPrice, priceSum,
      pivotLoop, connectionCount, isConnection]
  exact ⟨hcalc,
    ((calculateMCP_max_earliest [⟨0, 1⟩, ⟨1, 2⟩] (by simp)).2 ⟨1, 2, 1⟩ hcalc).2.2⟩

/-- Folding the price sum from an arbitrary accumulator. -/
theorem priceSum_foldl (l : List PricePoint) :
    ∀ acc : ℚ, l.foldl (fun acc point => acc + point.price) acc = acc + priceSum l := by
  induction l with
  | nil => intro acc; simp [priceSum]
  | cons p l ih =>
    intro acc
    simp only [priceSum, List.foldl_cons] at ih ⊢
    rw [ih, ih (0 + p.price)]
    ring

/-- The price sum of a cons. -/
theorem priceSum_cons (p : PricePoint) (l : List PricePoint) :
    priceSum (p :: l) = p.price + priceSum l := by
  show (p :: l).foldl (fun acc point => acc + point.price) 0 = _
  rw [List.foldl_cons, priceSum_foldl]
  ring

/-- A uniform upper bound on all prices bounds the price sum. -/
theorem priceSum_le (l : List PricePoint) (a : ℚ) (h : ∀ q ∈ l, q.price ≤ a) :
    priceSum l ≤ a * l.length := by
  induction l with
  | nil => simp [priceSum]
  | cons p l ih =>
    rw [priceSum_cons]
    have h1 := h p (List.mem_cons_self p l)
    have h2 := ih fun q hq => h q (List.mem_cons_of_mem p hq)
    have h3 : a * (((p :: l).length : ℚ)) = a * l.length + a := by
      push_cast [List.length_cons]
      ring
    rw [h3]
    linarith

/-- A uniform lower bound on all prices bounds the price sum. -/
theorem le_priceSum (l : List PricePoint) (a : ℚ) (h : ∀ q ∈ l, a ≤ q.price) :
    a * l.length ≤ priceSum l := by
  induction l with
  | nil => simp [priceSum]
  | cons p l ih =>
    rw [priceSum_cons]
    have h1 := h p (List.mem_cons_self p l)
    have h2 := ih fun q hq => h q (List.mem_cons_of_mem p hq)
    have h3 : a * (((p :: l).length : ℚ)) = a * l.length + a := by
      push_cast [List.length_cons]
      ring
    rw [h3]
    linarith

/-- If some walked point's above-average status differs from the tracked
flag, the walk records at least one crossover. -/
theorem pivotLoop_ne_nil (avg : ℚ) :
    ∀ (b : Bool) (l : List PricePoint),
      (∃ q ∈ l, decide (q.price > avg) ≠ b) → pivotLoop avg b l ≠ [] := by
  intro b l
  induction l generalizing b with
  | nil => intro h; simp at h
  | cons p rest ih =>
    intro h
    rw [pivotLoop]
    split
    next hflip => simp
    next hflip =>
      have hp : decide (p.price > avg) = b := by
        by_contra hc
        exact hflip hc
      apply ih
      obtain ⟨q, hq, hqb⟩ := h
      rcases List.mem_cons.mp hq with rfl | hq'
      · exact absurd hp hqb
      · exact ⟨q, hq', hqb⟩

/-- A witness point with a status different from the seed status forces a
non-empty candidate list. -/
theorem pivotPoints_cons_ne_nil (point0 : PricePoint) (tail : List PricePoint)
    (q : PricePoint) (hq : q ∈ tail)
    (hne : decide (q.price > avgPrice (point0 :: tail)) ≠
      decide (point0.price > avgPrice (point0 :: tail))) :
    pivotPoints (point0 :: tail) ≠ [] := by
  simp only [pivotPoints]
  exact pivotLoop_ne_nil _ _ tail ⟨q, hq, hne⟩

/-- A non-empty candidate list makes `calculateMCP` return a pivot. -/
theorem calculateMCP_ne_none_of_pivotPoints (ps : List PricePoint)
    (hemp : ps.isEmpty = false) (hpp : pivotPoints ps ≠ []) :
    calculateMCP ps ≠ none := by
  rw [calculateMCP, if_neg (by simp [hemp])]
  intro h
  have hms : (withConnections ps).mergeSort pivotLE = [] := List.head?_eq_none_iff.mp h
  have hwc : withConnections ps = [] :=
    (hms ▸ (List.mergeSort_perm (withConnections ps) pivotLE).symm).eq_nil
  exact hpp (by simpa only [withConnections, List.map_eq_nil_iff] using hwc)

/-- C4 counterexample: the strictly increasing two-point series
`[1, 2]` has average `3/2`; the walk starts below the average and point 1
is above it, so a crossover is recorded and `calculateMCP` returns a
pivot — not none as the claim asserts for monotonic series. -/
theorem calculateMCP_monotonic_counterexample :
    ([⟨0, 1⟩, ⟨1, 2⟩] : List PricePoint).Pairwise (fun a b => a.price < b.price) ∧
      calculateMCP [⟨0, 1⟩, ⟨1, 2⟩] ≠ none := by
  constructor
  · norm_num [List.pairwise_cons]
  · have h : calculateMCP [⟨0, 1⟩, ⟨1, 2⟩] = some ⟨1, 2, 1⟩ := by
      norm_num [calculateMCP, withConnections, pivotPoints, avgPrice, priceSum,
        pivotLoop, connectionCount, isConnection]
    simp [h]

/-- C4 (amended): a strictly monotonic series of at least two points
crosses its average exactly once during the walk, so `calculateMCP`
returns a pivot; only a strictly monotonic series of fewer than two
points (empty or a single point) yields none. -/
theorem calculateMCP_strict_monotone (ps : List PricePoint)
    (hmono : ps.Pairwise (fun a b => a.price < b.price) ∨
      ps.Pairwise (fun a b => b.price < a.price)) :
    (2 ≤ ps.length → calculateMCP ps ≠ none) ∧
      (ps.length < 2 → calculateMCP ps = none) := by
  constructor
  · intro hlen
    obtain ⟨point0, r, rest, rfl⟩ : ∃ point0 r rest, ps = point0 :: r :: rest := by
      match ps, hlen with
      | point0 :: r :: rest, _ => exact ⟨point0, r, rest, rfl⟩
    have hn2 : (((point0 :: r :: rest).length : ℚ)) = (rest.length : ℚ) + 2 := by
      push_cast [List.length_cons]
      ring
    have hn1 : (((r :: rest).length : ℚ)) = (rest.length : ℚ) + 1 := by
      push_cast [List.length_cons]
      ring
    have hcast : (0 : ℚ) ≤ (rest.length : ℚ) := Nat.cast_nonneg _
    have hn0 : (0 : ℚ) < (((point0 :: r :: rest).length : ℚ)) := by
      rw [hn2]; linarith
    have hSn : avgPrice (point0 :: r :: rest) * (((point0 :: r :: rest).length : ℚ)) =
        priceSum (point0 :: r :: rest) := by
      rw [avgPrice]
      exact div_mul_cancel₀ _ (ne_of_gt hn0)
    rcases hmono with hinc | hdec
    · have hall : ∀ a ∈ r :: rest, point0.price < a.price :=
        (List.pairwise_cons.mp hinc).1
      have hp0r : point0.price < r.price := hall r (List.mem_cons_self r rest)
      have hlow : point0.price * (((point0 :: r :: rest).length : ℚ)) <
          priceSum (point0 :: r :: rest) := by
        have h1 : point0.price * (rest.length : ℚ) ≤ priceSum rest :=
          le_priceSum rest point0.price fun q hq =>
            (hall q (List.mem_cons_of_mem r hq)).le
        rw [priceSum_cons, priceSum_cons, hn2]
        nlinarith
      have hp0avg : point0.price < avgPrice (point0 :: r :: rest) := by
        rw [avgPrice, lt_div_iff₀ hn0]
        exact hlow
      have habove : ∃ q ∈ r :: rest, avgPrice (point0 :: r :: rest) < q.price := by
        by_contra hcon
        push_neg at hcon
        have hs : priceSum (r :: rest) ≤
            avgPrice (point0 :: r :: rest) * (((r :: rest).length : ℚ)) :=
          priceSum_le _ _ hcon
        have hlt : priceSum (point0 :: r :: rest) <
            avgPrice (point0 :: r :: rest) * (((point0 :: r :: rest).length : ℚ)) := by
          rw [priceSum_cons, hn2]
          rw [hn1] at hs
          nlinarith
        linarith [hSn]
      obtain ⟨q, hq, hqavg⟩ := habove
      refine calculateMCP_ne_none_of_pivotPoints _ rfl
        (pivotPoints_cons_ne_nil point0 (r :: rest) q hq ?_)
      rw [decide_eq_true hqavg, decide_eq_false (not_lt.mpr hp0avg.le)]
      simp
    · have hall : ∀ a ∈ r :: rest, a.price < point0.price :=
        (List.pairwise_cons.mp hdec).1
      have hp0r : r.price < point0.price := hall r (List.mem_cons_self r rest)
      have hhigh : priceSum (point0 :: r :: rest) <
          point0.price * (((point0 :: r :: rest).length : ℚ)) := by
        have h1 : priceSum rest ≤ point0.price * (rest.length : ℚ) :=
          priceSum_le rest point0.price fun q hq =>
            (hall q (List.mem_cons_of_mem r hq)).le
        rw [priceSum_cons, priceSum_cons, hn2]
        nlinarith
      have hp0avg : avgPrice (point0 :: r :: rest) < point0.price := by
        rw [avgPrice, div_lt_iff₀ hn0]
        exact hhigh
      have hbelow : ∃ q ∈ r :: rest, q.price ≤ avgPrice (point0 :: r :: rest) := by
        by_contra hcon
        push_neg at hcon
        have hs : avgPrice (point0 :: r :: rest) * (((r :: rest).length : ℚ)) ≤
            priceSum (r :: rest) :=
          le_priceSum _ _ fun q hq => (hcon q hq).le
        have hgt : avgPrice (point0 :: r :: rest) * (((point0 :: r :: rest).length : ℚ)) <
            priceSum (point0 :: r :: rest) := by
          rw [priceSum_cons, hn2]
          rw [hn1] at hs
          nlinarith
        linarith [hSn]
      obtain ⟨q, hq, hqavg⟩ := hbelow
      refine calculateMCP_ne_none_of_pivotPoints _ rfl
        (pivotPoints_cons_ne_nil point0 (r :: rest) q hq ?_)
      rw [decide_eq_false (not_lt.mpr hqavg), decide_eq_true hp0avg]
      simp
  · intro hlen
    match ps, hlen with
    | [], _ => rfl
    | [p], _ =>
      show calculateMCP [p] = none
      simp [calculateMCP, withConnections, pivotPoints, pivotLoop]

/-- Closed instance of `calculateMCP_strict_monotone`: the increasing
two-point series yields a pivot; a one-point series yields none. -/
theorem calculateMCP_strict_monotone_witness :
    calculateMCP [⟨0, 1⟩, ⟨1, 2⟩] ≠ none ∧ calculateMCP [⟨0, 1⟩] = none :=
  ⟨(calculateMCP_strict_monotone [⟨0, 1⟩, ⟨1, 2⟩]
      (Or.inl (by norm_num [List.pairwise_cons]))).1 (by simp),
    (calculateMCP_strict_monotone [⟨0, 1⟩] (Or.inl (by simp))).2 (by simp)⟩

/-- C9: every token-state operation preserves (or re-establishes) the
invariant `isAuthenticated = (access token present ∧ expiry in the future
at the last check)`: the startup load recomputes it against the load
time; a code-exchange login and a successful refresh establish it against
the exchange time (for a real token response: non-empty access token,
positive lifetime); a failed refresh and the fast path leave the state —
hence the invariant at the previous check time — untouched; logout
establishes it at every time. -/
theorem authInvariant_preserved :
    (∀ (file : AuthState) (now : Int), authInvariant (loadAuthState file now) now) ∧
      (∀ (now : Int) (r : TokenResponse), r.access_token ≠ "" → 0 < r.expires_in →
        authInvariant (completeLogin now r) now) ∧
      (∀ (s : AuthState) (now t : Int) (r : TokenResponse),
        authInvariant s t → r.access_token ≠ "" → 0 < r.expires_in →
        authInvariant (ensureValidToken s now (some r)).state
          (if (ensureValidToken s now (some r)).refreshCalled = true then now else t)) ∧
      (∀ (s : AuthState) (now t : Int), authInvariant s t →
        authInvariant (ensureValidToken s now none).state t) ∧
      (∀ t : Int, authInvariant logoutState t) := by
  have hfresh : ∀ (now : Int) (r : TokenResponse), r.access_token ≠ "" → 0 < r.expires_in →
      authInvariant (refreshedState now r) now := by
    intro now r hacc hexp
    have h1 : r.access_token.isEmpty = false := by
      rw [Bool.eq_false_iff]
      intro hc
      exact hacc ((String.isEmpty_iff r.access_token).mp hc)
    simp [authInvariant, refreshedState, tokenPresent, expInFuture, h1]
    omega
  refine ⟨fun file now => rfl, fun now r hacc hexp => hfresh now r hacc hexp, ?_, ?_, fun t => rfl⟩
  · intro s now t r hinv hacc hexp
    unfold ensureValidToken
    cases s.expiresAt with
    | none => simpa using hinv
    | some e =>
      by_cases hrt : tokenPresent s.refreshToken
      · by_cases hfast : e > now + fiveMinutesMs
        · simpa [hrt, hfast] using hinv
        · simpa [hrt, hfast] using hfresh now r hacc hexp
      · simpa [hrt] using hinv
  · intro s now t hinv
    unfold ensureValidToken
    cases s.expiresAt with
    | none => simpa using hinv
    | some e =>
      by_cases hrt : tokenPresent s.refreshToken
      · by_cases hfast : e > now + fiveMinutesMs
        · simpa [hrt, hfast] using hinv
        · simpa [hrt, hfast] using hinv
      · simpa [hrt] using hinv

/-- Closed instance of `authInvariant_preserved`: each operation applied
at concrete inputs. -/
theorem authInvariant_preserved_witness :
    authInvariant (loadAuthState ⟨some "acc", some "ref", some 10, true⟩ 5) 5 ∧
      authInvariant (completeLogin 5 ⟨"acc", "ref", 3600⟩) 5 ∧
      authInvariant (ensureValidToken logoutState 7 (some ⟨"acc", "ref", 3600⟩)).state
        (if (ensureValidToken logoutState 7 (some ⟨"acc", "ref", 3600⟩)).refreshCalled = true
          then 7 else 3) ∧
      authInvariant (ensureValidToken logoutState 7 none).state 3 ∧
      authInvariant logoutState 0 :=
  ⟨authInvariant_preserved.1 ⟨some "acc", some "ref", some 10, true⟩ 5,
    authInvariant_preserved.2.1 5 ⟨"acc", "ref", 3600⟩ (by decide) (by decide),
    authInvariant_preserved.2.2.1 logoutState 7 3 ⟨"acc", "ref", 3600⟩ rfl
      (by decide) (by decide),
    authInvariant_preserved.2.2.2.1 logoutState 7 3 rfl,
    authInvariant_preserved.2.2.2.2 0⟩

end MCP
